import Mathlib

/-!
Verification of the keyed, capacity-bounded cache engine sketched in
`examples/sample_cpp/complex_example.h` (namespace `data::storage`, class
`Cache`).  The header declares the data model (enum `CachePolicy`, struct
`CacheEntry`, the private fields `policy`, `max_size`, `entries`) and the
operation signatures (`Cache`, `get`, `put`), but carries no bodies for the
operations.  The `CacheEntry` constructor is the only member with a body in
the source; it is embedded directly.  The operation bodies are modelled from
the specification, as marked on each definition.

Modelling choices:
* `std::string` keys stay `String`; the type-erased `std::any` value becomes
  a type parameter `α`.
* `std::chrono::steady_clock` is a monotone clock; it becomes a logical
  clock `now : Nat` carried in the cache state, incremented each time a
  timestamp is stamped, so timestamps are strictly increasing and ties
  never arise.
* `std::unordered_map<std::string, CacheEntry>` becomes an association list
  `List (String × CacheEntry α)` kept in insertion order; well-formed states
  have pairwise distinct keys, mirroring the map's key uniqueness.
* the seeded random source for the `RANDOM` policy becomes a `seed : Nat`
  field stepped by a linear congruential generator on each draw.
-/

/-- The nested enum `Cache::CachePolicy` from the source: `LRU`, `FIFO`,
`RANDOM`. -/
inductive CachePolicy where
  | LRU
  | FIFO
  | RANDOM
deriving DecidableEq, Repr

/-- The nested struct `Cache::CacheEntry` from the source: a key, a
type-erased value, and a `steady_clock` timestamp (modelled as `Nat`). -/
structure CacheEntry (α : Type) where
  key : String
  value : α
  timestamp : Nat
deriving DecidableEq, Repr

/-- The source constructor `CacheEntry(std::string k, std::any v)` with its
member initializer list `key(std::move(k)), value(std::move(v)),
timestamp(std::chrono::steady_clock::now())`: the clock reading taken at
construction time is passed explicitly as `now`. -/
def CacheEntry.make (k : String) (v : α) (now : Nat) : CacheEntry α :=
  { key := k, value := v, timestamp := now }

/-- Error taxonomy of the specification.  `Absent` and `RejectedOverwrite`
are ordinary results (an `Option` miss, a `put` returning `false`), so the
only error value is `InvalidCapacity`. -/
inductive CacheError where
  | invalidCapacity
deriving DecidableEq, Repr

/-- The class `data::storage::Cache` from the source: its private fields
`policy`, `max_size` and `entries`, plus the modelled monotone clock `now`
and the seeded random source `seed`. -/
structure Cache (α : Type) where
  policy : CachePolicy
  max_size : Nat
  entries : List (String × CacheEntry α)
  now : Nat
  seed : Nat
deriving DecidableEq, Repr

/-- Lookup in the entry map: the first entry stored under key `k`. -/
def lookupEntry (k : String) : List (String × CacheEntry α) → Option (CacheEntry α)
  | [] => none
  | p :: ps => if p.1 = k then some p.2 else lookupEntry k ps

/-- In-place update of the entry stored under key `k`, leaving the rest of
the map untouched (the map's counterpart of mutating a found entry). -/
def updateEntry (k : String) (f : CacheEntry α → CacheEntry α) :
    List (String × CacheEntry α) → List (String × CacheEntry α)
  | [] => []
  | p :: ps => if p.1 = k then (p.1, f p.2) :: ps else p :: updateEntry k f ps

/-- The keys currently stored, in insertion order. -/
def Cache.keys (c : Cache α) : List String :=
  c.entries.map Prod.fst

/-- Modelled from the spec: the seeded random source used by the `RANDOM`
policy, stepped on each draw (a linear congruential generator). -/
def lcgStep (s : Nat) : Nat :=
  (s * 1103515245 + 12345) % 2147483648

/-- Modelled from the spec: victim selection at full capacity.  `LRU` and
`FIFO` evict the entry with the oldest timestamp (under `FIFO` the timestamp
is never refreshed by reads, so it is the insertion instant); ties cannot
arise because the clock is strictly monotone, and `List.argmin` would break
them toward the earlier insertion as the spec demands.  `RANDOM` draws an
index from the seeded source. -/
def Cache.selectVictim (c : Cache α) : Option (String × CacheEntry α) :=
  match c.policy with
  | CachePolicy.RANDOM => c.entries.get? (c.seed % c.entries.length)
  | _ => c.entries.argmin (fun p => p.2.timestamp)

/-- The raw cache state produced by a successful construction: empty entry
map, clock and seed at zero. -/
def Cache.init (α : Type) (p : CachePolicy) (size : Nat) : Cache α :=
  { policy := p, max_size := size, entries := [], now := 0, seed := 0 }

/-- Modelled from the spec: the constructor
`Cache(CachePolicy p = LRU, size_t size = 1000)`, whose body is absent from
the source.  `maxSize` must be positive; `maxSize = 0` fails with
`InvalidCapacity` and produces no usable cache. -/
def Cache.new (α : Type) (p : CachePolicy) (size : Nat) : Except CacheError (Cache α) :=
  if size = 0 then Except.error CacheError.invalidCapacity
  else Except.ok (Cache.init α p size)

/-- Modelled from the spec: `get(key)`, whose body is absent from the
source.  Returns the stored value if present, else `none`; a hit under `LRU`
refreshes the entry's timestamp to the current instant, while `FIFO` and
`RANDOM` leave the state untouched. -/
def Cache.get (c : Cache α) (k : String) : Option α × Cache α :=
  match lookupEntry k c.entries with
  | none => (none, c)
  | some e =>
    match c.policy with
    | CachePolicy.LRU =>
        (some e.value,
         { c with
           entries := updateEntry k (fun en => { en with timestamp := c.now }) c.entries,
           now := c.now + 1 })
    | _ => (some e.value, c)

/-- Modelled from the spec: `put(key, value, overwrite = true)`, whose body
is absent from the source.  An existing key is overwritten (value replaced,
timestamp refreshed) when `ow = true` and rejected with `false` otherwise; a
new key is appended when under capacity, and at capacity exactly one victim
chosen by the active policy is erased before the insertion.  The `none`
victim branch is unreachable from any validly constructed cache (it would
need capacity zero). -/
def Cache.put (c : Cache α) (k : String) (v : α) (ow : Bool) : Bool × Cache α :=
  match lookupEntry k c.entries with
  | some _ =>
    if ow then
      (true,
       { c with
         entries := updateEntry k (fun e => { e with value := v, timestamp := c.now }) c.entries,
         now := c.now + 1 })
    else (false, c)
  | none =>
    if c.entries.length < c.max_size then
      (true,
       { c with
         entries := c.entries ++ [(k, CacheEntry.make k v c.now)],
         now := c.now + 1 })
    else
      match c.selectVictim with
      | none => (false, c)
      | some victim =>
        (true,
         { c with
           entries := (c.entries.eraseP (fun p => p.1 == victim.1)) ++
                      [(k, CacheEntry.make k v c.now)],
           now := c.now + 1,
           seed := if c.policy = CachePolicy.RANDOM then lcgStep c.seed else c.seed })

/-- Modelled from the spec: `remove(key)`, explicitly absent from the source
sketch but required by the specification.  Removes the entry if present and
returns whether anything was removed; a missing key is a no-op returning
`false`. -/
def Cache.remove (c : Cache α) (k : String) : Bool × Cache α :=
  match lookupEntry k c.entries with
  | none => (false, c)
  | some _ => (true, { c with entries := c.entries.eraseP (fun p => p.1 == k) })

/-- A cache operation: a `put` or a `get`, as issued by a caller. -/
inductive CacheOp (α : Type) where
  | put (key : String) (value : α) (ow : Bool)
  | get (key : String)
deriving DecidableEq, Repr

/-- State reached after one operation (the returned value is discarded). -/
def Cache.step (c : Cache α) : CacheOp α → Cache α
  | CacheOp.put k v ow => (c.put k v ow).2
  | CacheOp.get k => (c.get k).2

/-- State reached after a whole operation sequence. -/
def Cache.runOps (c : Cache α) (ops : List (CacheOp α)) : Cache α :=
  ops.foldl Cache.step c

/-- Whether an operation is a `put`. -/
def CacheOp.isPut : CacheOp α → Bool
  | CacheOp.put _ _ _ => true
  | CacheOp.get _ => false

/-- State reached after a sequence of `put` calls (key, value, overwrite). -/
def Cache.putSeq (c : Cache α) (ops : List (String × α × Bool)) : Cache α :=
  ops.foldl (fun acc op => (acc.put op.1 op.2.1 op.2.2).2) c

/-- Concrete key used by the specification's worked examples. -/
def kA : String := "a"

/-- Concrete key used by the specification's worked examples. -/
def kB : String := "b"

/-- Concrete key used by the specification's worked examples. -/
def kC : String := "c"

/-- A concrete LRU cache holding one entry with spare capacity. -/
def demoOne : Cache Nat :=
  { policy := CachePolicy.LRU, max_size := 2,
    entries := [(kA, CacheEntry.make kA 1 0)], now := 1, seed := 0 }

/-- A concrete LRU cache at full capacity two. -/
def demoLRU : Cache Nat :=
  { policy := CachePolicy.LRU, max_size := 2,
    entries := [(kA, CacheEntry.make kA 1 0), (kB, CacheEntry.make kB 2 1)],
    now := 2, seed := 0 }

/-- A concrete FIFO cache at full capacity two. -/
def demoFIFO : Cache Nat :=
  { policy := CachePolicy.FIFO, max_size := 2,
    entries := [(kA, CacheEntry.make kA 1 0), (kB, CacheEntry.make kB 2 1)],
    now := 2, seed := 0 }

/-- A concrete LRU cache of capacity one at full capacity. -/
def demoFull : Cache Nat :=
  { policy := CachePolicy.LRU, max_size := 1,
    entries := [(kA, CacheEntry.make kA 1 0)], now := 1, seed := 0 }

/-! ### Helper lemmas about the entry map -/

theorem length_updateEntry (k : String) (f : CacheEntry α → CacheEntry α)
    (l : List (String × CacheEntry α)) : (updateEntry k f l).length = l.length := by
  induction l with
  | nil => rfl
  | cons p ps ih =>
    unfold updateEntry
    by_cases h : p.1 = k <;> simp [h, ih]

theorem lookupEntry_updateEntry (k : String) (f : CacheEntry α → CacheEntry α)
    (l : List (String × CacheEntry α)) :
    lookupEntry k (updateEntry k f l) = (lookupEntry k l).map f := by
  induction l with
  | nil => rfl
  | cons p ps ih =>
    unfold updateEntry lookupEntry
    by_cases h : p.1 = k <;> simp [h, ih, lookupEntry]

theorem lookupEntry_eq_none_iff (k : String) (l : List (String × CacheEntry α)) :
    lookupEntry k l = none ↔ k ∉ l.map Prod.fst := by
  induction l with
  | nil => simp [lookupEntry]
  | cons p ps ih =>
    obtain ⟨p1, p2⟩ := p
    unfold lookupEntry
    by_cases h : p1 = k
    · subst h
      simp
    · rw [if_neg h, ih]
      simp only [List.map_cons, List.mem_cons]
      constructor
      · intro hnot hor
        cases hor with
        | inl heq => exact h heq.symm
        | inr hm => exact hnot hm
      · intro hnot hm
        exact hnot (Or.inr hm)

theorem lookupEntry_mem (k : String) (l : List (String × CacheEntry α))
    (e : CacheEntry α) (h : lookupEntry k l = some e) : (k, e) ∈ l := by
  induction l with
  | nil => simp [lookupEntry] at h
  | cons p ps ih =>
    obtain ⟨p1, p2⟩ := p
    unfold lookupEntry at h
    by_cases hp : p1 = k
    · subst hp
      simp at h
      subst h
      exact List.mem_cons_self _ _
    · simp [hp] at h
      exact List.mem_cons_of_mem _ (ih h)

theorem lookupEntry_append_of_none (k : String) (l : List (String × CacheEntry α))
    (e : CacheEntry α) (h : lookupEntry k l = none) :
    lookupEntry k (l ++ [(k, e)]) = some e := by
  induction l with
  | nil => simp [lookupEntry]
  | cons p ps ih =>
    unfold lookupEntry at h ⊢
    by_cases hp : p.1 = k <;> simp [hp] at h ⊢
    exact ih h

theorem lookupEntry_eraseP_self (k : String) (l : List (String × CacheEntry α))
    (hnd : (l.map Prod.fst).Nodup) :
    lookupEntry k (l.eraseP (fun p => p.1 == k)) = none := by
  induction l with
  | nil => rfl
  | cons p ps ih =>
    simp only [List.map_cons, List.nodup_cons] at hnd
    by_cases hp : p.1 = k
    · rw [List.eraseP_cons_of_pos]
      · rw [lookupEntry_eq_none_iff]
        rw [← hp]
        exact hnd.1
      · simp [hp]
    · rw [List.eraseP_cons_of_neg]
      · unfold lookupEntry
        simp [hp]
        exact ih hnd.2
      · simp [hp]

/-! ### Victim selection -/

theorem Cache.selectVictim_mem (c : Cache α) (victim : String × CacheEntry α)
    (h : c.selectVictim = some victim) : victim ∈ c.entries := by
  unfold Cache.selectVictim at h
  cases hp : c.policy with
  | RANDOM =>
    rw [hp] at h
    exact List.get?_mem h
  | LRU =>
    rw [hp] at h
    exact List.argmin_mem h
  | FIFO =>
    rw [hp] at h
    exact List.argmin_mem h

theorem Cache.selectVictim_isSome (c : Cache α) (h : c.entries ≠ []) :
    ∃ victim, c.selectVictim = some victim := by
  unfold Cache.selectVictim
  cases hp : c.policy with
  | RANDOM =>
    have hlen : 0 < c.entries.length := List.length_pos.mpr h
    have hidx : c.seed % c.entries.length < c.entries.length := Nat.mod_lt _ hlen
    exact ⟨c.entries.get ⟨c.seed % c.entries.length, hidx⟩, List.get?_eq_get hidx⟩
  | LRU =>
    cases hv : c.entries.argmin (fun p => p.2.timestamp) with
    | none => exact absurd (List.argmin_eq_none.mp hv) h
    | some victim => exact ⟨victim, rfl⟩
  | FIFO =>
    cases hv : c.entries.argmin (fun p => p.2.timestamp) with
    | none => exact absurd (List.argmin_eq_none.mp hv) h
    | some victim => exact ⟨victim, rfl⟩

/-! ### Bookkeeping facts about `put` and `get` -/

theorem Cache.put_max_size (c : Cache α) (k : String) (v : α) (ow : Bool) :
    (c.put k v ow).2.max_size = c.max_size := by
  unfold Cache.put
  cases hl : lookupEntry k c.entries with
  | some e => cases ow <;> simp
  | none =>
    by_cases hlen : c.entries.length < c.max_size
    · simp [hlen]
    · simp only [if_neg hlen]
      cases hv : c.selectVictim with
      | none => simp
      | some victim => simp

theorem Cache.put_policy (c : Cache α) (k : String) (v : α) (ow : Bool) :
    (c.put k v ow).2.policy = c.policy := by
  unfold Cache.put
  cases hl : lookupEntry k c.entries with
  | some e => cases ow <;> simp
  | none =>
    by_cases hlen : c.entries.length < c.max_size
    · simp [hlen]
    · simp only [if_neg hlen]
      cases hv : c.selectVictim with
      | none => simp
      | some victim => simp

theorem Cache.get_fifo_random_noop (c : Cache α) (k : String)
    (h : c.policy = CachePolicy.FIFO ∨ c.policy = CachePolicy.RANDOM) :
    (c.get k).2 = c := by
  unfold Cache.get
  cases hl : lookupEntry k c.entries with
  | none => rfl
  | some e =>
    cases h with
    | inl hp => rw [hp]
    | inr hp => rw [hp]

theorem Cache.get_fst_of_lookup (c : Cache α) (k : String) (e : CacheEntry α)
    (h : lookupEntry k c.entries = some e) : (c.get k).1 = some e.value := by
  unfold Cache.get
  rw [h]
  cases hp : c.policy <;> rfl

theorem Cache.put_capacity_le (c : Cache α) (k : String) (v : α) (ow : Bool)
    (h : c.entries.length ≤ c.max_size) :
    (c.put k v ow).2.entries.length ≤ c.max_size := by
  unfold Cache.put
  cases hl : lookupEntry k c.entries with
  | some e =>
    cases ow
    · simpa using h
    · simpa [length_updateEntry] using h
  | none =>
    by_cases hlen : c.entries.length < c.max_size
    · simp only [if_pos hlen]
      simp [List.length_append]
      exact hlen
    · simp only [if_neg hlen]
      cases hv : c.selectVictim with
      | none => simpa using h
      | some victim =>
        simp only [List.length_append, List.length_cons, List.length_nil]
        have hm := Cache.selectVictim_mem c victim hv
        have he : (c.entries.eraseP (fun p => p.1 == victim.1)).length =
            c.entries.length - 1 :=
          List.length_eraseP_of_mem hm (by simp)
        have hpos : 0 < c.entries.length := by
          apply List.length_pos.mpr
          intro hnil
          rw [hnil] at hm
          exact (List.not_mem_nil victim) hm
        omega

theorem Cache.putSeq_invariant (ops : List (String × α × Bool)) (c : Cache α)
    (h : c.entries.length ≤ c.max_size) :
    (c.putSeq ops).entries.length ≤ (c.putSeq ops).max_size := by
  induction ops generalizing c with
  | nil => exact h
  | cons op ops ih =>
    simp only [Cache.putSeq, List.foldl_cons] at *
    apply ih
    rw [Cache.put_max_size]
    exact Cache.put_capacity_le c op.1 op.2.1 op.2.2 h

/-! ### The claims -/

/-- C1: for every sequence of `put` operations on a cache constructed with
capacity `maxSize`, after each `put` completes the number of entries in the
cache is at most `maxSize`. -/
theorem putSeq_capacity (A : Type) (p : CachePolicy) (n : Nat) (c0 : Cache A)
    (h : Cache.new A p n = Except.ok c0) (ops : List (String × A × Bool)) :
    (c0.putSeq ops).entries.length ≤ (c0.putSeq ops).max_size := by
  apply Cache.putSeq_invariant
  unfold Cache.new at h
  by_cases hn : n = 0
  · rw [if_pos hn] at h
    exact absurd h (by simp)
  · rw [if_neg hn] at h
    have hc : c0 = Cache.init A p n := by
      cases h
      rfl
    rw [hc]
    exact Nat.zero_le n

/-- Witness for C1 at a concrete construction and `put` sequence. -/
theorem putSeq_capacity_witness :
    Cache.new Nat CachePolicy.LRU 2 = Except.ok (Cache.init Nat CachePolicy.LRU 2) ∧
    ((Cache.init Nat CachePolicy.LRU 2).putSeq
        [(kA, 1, true), (kB, 2, true), (kC, 3, true)]).entries.length ≤
      ((Cache.init Nat CachePolicy.LRU 2).putSeq
        [(kA, 1, true), (kB, 2, true), (kC, 3, true)]).max_size :=
  ⟨rfl, putSeq_capacity Nat CachePolicy.LRU 2 (Cache.init Nat CachePolicy.LRU 2) rfl
    [(kA, 1, true), (kB, 2, true), (kC, 3, true)]⟩

/-- C5: `put(k, v2, overwrite = false)` on a present key returns `false`,
leaves the cache state entirely unchanged (value and ordering metadata
included), and a subsequent `get(k)` still returns the old value. -/
theorem put_overwrite_false_noop (A : Type) (c : Cache A) (k : String) (v2 : A)
    (e : CacheEntry A) (h : lookupEntry k c.entries = some e) :
    c.put k v2 false = (false, c) ∧ ((c.put k v2 false).2.get k).1 = some e.value := by
  have h1 : c.put k v2 false = (false, c) := by
    unfold Cache.put
    rw [h]
    rfl
  refine ⟨h1, ?_⟩
  rw [h1]
  exact Cache.get_fst_of_lookup c k e h

/-- Witness for C5 on a concrete cache. -/
theorem put_overwrite_false_noop_witness :
    lookupEntry kA demoLRU.entries = some (CacheEntry.make kA 1 0) ∧
    demoLRU.put kA 9 false = (false, demoLRU) :=
  ⟨by decide, (put_overwrite_false_noop Nat demoLRU kA 9 (CacheEntry.make kA 1 0) (by decide)).1⟩

/-- C6: `put(k, v2)` with the default `overwrite = true` on a present key
returns `true`, replaces the value with `v2`, refreshes the entry's
ordering metadata to the current instant, and a subsequent `get(k)`
returns `v2`. -/
theorem put_overwrite_true_updates (A : Type) (c : Cache A) (k : String) (v2 : A)
    (e : CacheEntry A) (h : lookupEntry k c.entries = some e) :
    (c.put k v2 true).1 = true ∧
    lookupEntry k (c.put k v2 true).2.entries =
      some { e with value := v2, timestamp := c.now } ∧
    ((c.put k v2 true).2.get k).1 = some v2 := by
  have hstate : c.put k v2 true =
      (true,
       { c with
         entries := updateEntry k (fun en => { en with value := v2, timestamp := c.now }) c.entries,
         now := c.now + 1 }) := by
    unfold Cache.put
    rw [h]
    rfl
  have hlook : lookupEntry k (c.put k v2 true).2.entries =
      some { e with value := v2, timestamp := c.now } := by
    rw [hstate]
    show lookupEntry k (updateEntry k (fun en => { en with value := v2, timestamp := c.now }) c.entries) = _
    rw [lookupEntry_updateEntry, h]
    rfl
  refine ⟨by rw [hstate], hlook, ?_⟩
  exact Cache.get_fst_of_lookup (c.put k v2 true).2 k _ hlook

/-- Witness for C6 on a concrete cache. -/
theorem put_overwrite_true_updates_witness :
    lookupEntry kA demoLRU.entries = some (CacheEntry.make kA 1 0) ∧
    (demoLRU.put kA 9 true).1 = true ∧
    ((demoLRU.put kA 9 true).2.get kA).1 = some 9 :=
  ⟨by decide,
   (put_overwrite_true_updates Nat demoLRU kA 9 (CacheEntry.make kA 1 0) (by decide)).1,
   (put_overwrite_true_updates Nat demoLRU kA 9 (CacheEntry.make kA 1 0) (by decide)).2.2⟩

/-- C7: construction with `maxSize = 0` (the only non-positive `size_t`
capacity) fails with `InvalidCapacity` and yields no cache; any positive
capacity succeeds, producing the empty cache with the requested policy and
capacity. -/
theorem new_rejects_zero_capacity (A : Type) (p : CachePolicy) :
    Cache.new A p 0 = Except.error CacheError.invalidCapacity ∧
    ∀ n : Nat, 0 < n →
      Cache.new A p n = Except.ok (Cache.init A p n) ∧
      (Cache.init A p n).policy = p ∧ (Cache.init A p n).max_size = n ∧
      (Cache.init A p n).entries = [] := by
  constructor
  · rfl
  · intro n hn
    refine ⟨?_, rfl, rfl, rfl⟩
    unfold Cache.new
    rw [if_neg (by omega)]

/-- Witness for C7 at capacity 3. -/
theorem new_rejects_zero_capacity_witness :
    0 < 3 ∧ Cache.new Nat CachePolicy.FIFO 3 = Except.ok (Cache.init Nat CachePolicy.FIFO 3) :=
  ⟨by decide, ((new_rejects_zero_capacity Nat CachePolicy.FIFO).2 3 (by decide)).1⟩

/-- C8: `get` on an absent key returns the explicit absent result, raises
nothing, and leaves the cache state (so in particular the number of
entries) unchanged. -/
theorem get_miss_noop (A : Type) (c : Cache A) (k : String)
    (h : lookupEntry k c.entries = none) :
    c.get k = (none, c) ∧ (c.get k).2.entries.length = c.entries.length := by
  have h1 : c.get k = (none, c) := by
    unfold Cache.get
    rw [h]
  exact ⟨h1, by rw [h1]⟩

/-- Witness for C8 on a concrete cache. -/
theorem get_miss_noop_witness :
    lookupEntry kC demoLRU.entries = none ∧ demoLRU.get kC = (none, demoLRU) :=
  ⟨by decide, (get_miss_noop Nat demoLRU kC (by decide)).1⟩

/-- C10: the `CacheEntry` constructor stores exactly the given key and
value and stamps the entry with the clock reading taken at construction
time; consequently an entry freshly inserted by `put` carries the cache's
current instant as its initial recency marker. -/
theorem cacheEntry_ctor_spec :
    (∀ (A : Type) (k : String) (v : A) (t : Nat),
        (CacheEntry.make k v t).key = k ∧ (CacheEntry.make k v t).value = v ∧
        (CacheEntry.make k v t).timestamp = t) ∧
    (∀ (A : Type) (c : Cache A) (k : String) (v : A) (ow : Bool),
        lookupEntry k c.entries = none → c.entries.length < c.max_size →
        lookupEntry k (c.put k v ow).2.entries = some (CacheEntry.make k v c.now)) := by
  constructor
  · intro A k v t
    exact ⟨rfl, rfl, rfl⟩
  · intro A c k v ow h hlen
    have hstate : c.put k v ow =
        (true,
         { c with
           entries := c.entries ++ [(k, CacheEntry.make k v c.now)],
           now := c.now + 1 }) := by
      unfold Cache.put
      rw [h, if_pos hlen]
    rw [hstate]
    exact lookupEntry_append_of_none k c.entries _ h

/-- Witness for C10: a fresh insertion on a concrete cache with spare
capacity carries the construction-time clock reading. -/
theorem cacheEntry_ctor_spec_witness :
    lookupEntry kB demoOne.entries = none ∧
    demoOne.entries.length < demoOne.max_size ∧
    lookupEntry kB (demoOne.put kB 2 true).2.entries = some (CacheEntry.make kB 2 demoOne.now) :=
  ⟨by decide, by decide, cacheEntry_ctor_spec.2 Nat demoOne kB 2 true (by decide) (by decide)⟩

/-- C2: a `put` of a new key on a cache holding exactly `maxSize` entries
(positive capacity) evicts exactly one entry, chosen by the active policy,
before inserting the new entry, and returns `true`; on a capacity-1 cache
the sole existing entry is evicted and only the new key remains. -/
theorem put_new_at_capacity_evicts (A : Type) (c : Cache A) (k : String) (v : A) (ow : Bool)
    (hk : lookupEntry k c.entries = none)
    (hfull : c.entries.length = c.max_size)
    (hpos : 0 < c.max_size) :
    (c.put k v ow).1 = true ∧
    ∃ victim, c.selectVictim = some victim ∧ victim ∈ c.entries ∧
      (c.put k v ow).2.entries =
        (c.entries.eraseP (fun p => p.1 == victim.1)) ++ [(k, CacheEntry.make k v c.now)] ∧
      (c.put k v ow).2.entries.length = c.max_size ∧
      (c.max_size = 1 → (c.put k v ow).2.entries = [(k, CacheEntry.make k v c.now)]) := by
  have hne : c.entries ≠ [] := by
    intro hnil
    rw [hnil] at hfull
    simp at hfull
    omega
  obtain ⟨victim, hv⟩ := Cache.selectVictim_isSome c hne
  have hnotlt : ¬ c.entries.length < c.max_size := by omega
  have hstate : c.put k v ow =
      (true,
       { c with
         entries := (c.entries.eraseP (fun p => p.1 == victim.1)) ++
                    [(k, CacheEntry.make k v c.now)],
         now := c.now + 1,
         seed := if c.policy = CachePolicy.RANDOM then lcgStep c.seed else c.seed }) := by
    unfold Cache.put
    rw [hk, if_neg hnotlt, hv]
  have hm := Cache.selectVictim_mem c victim hv
  have herase : (c.entries.eraseP (fun p => p.1 == victim.1)).length =
      c.entries.length - 1 :=
    List.length_eraseP_of_mem hm (by simp)
  have hposlen : 0 < c.entries.length := by omega
  refine ⟨by rw [hstate], victim, hv, hm, by rw [hstate], ?_, ?_⟩
  · rw [hstate]
    show ((c.entries.eraseP (fun p => p.1 == victim.1)) ++
          [(k, CacheEntry.make k v c.now)]).length = c.max_size
    simp only [List.length_append, List.length_cons, List.length_nil]
    omega
  · intro h1
    rw [hstate]
    show (c.entries.eraseP (fun p => p.1 == victim.1)) ++
         [(k, CacheEntry.make k v c.now)] = [(k, CacheEntry.make k v c.now)]
    have hlen1 : c.entries.length = 1 := by omega
    obtain ⟨e0, he0⟩ := List.length_eq_one.mp hlen1
    rw [he0] at hm
    have hve : victim = e0 := List.mem_singleton.mp hm
    rw [he0, hve]
    rw [List.eraseP_cons_of_pos]
    · rfl
    · simp

/-- Witness for C2 on a concrete capacity-1 cache. -/
theorem put_new_at_capacity_evicts_witness :
    lookupEntry kB demoFull.entries = none ∧
    demoFull.entries.length = demoFull.max_size ∧
    0 < demoFull.max_size ∧
    (demoFull.put kB 2 true).1 = true :=
  ⟨by decide, by decide, by decide,
   (put_new_at_capacity_evicts Nat demoFull kB 2 true (by decide) (by decide) (by decide)).1⟩

/-- C3: under LRU a successful `get` refreshes the hit entry's recency
marker to the current instant; under FIFO and RANDOM `get` has no ordering
side effect; on a capacity-2 LRU cache the sequence
`put a; put b; get a; put c` evicts `b`, leaving exactly the keys `a, c`. -/
theorem get_lru_refresh_spec :
    (∀ (A : Type) (c : Cache A) (k : String) (e : CacheEntry A),
        c.policy = CachePolicy.LRU → lookupEntry k c.entries = some e →
        lookupEntry k (c.get k).2.entries = some { e with timestamp := c.now }) ∧
    (∀ (A : Type) (c : Cache A) (k : String),
        c.policy = CachePolicy.FIFO ∨ c.policy = CachePolicy.RANDOM →
        (c.get k).2 = c) ∧
    (((((Cache.init Nat CachePolicy.LRU 2).put kA 1 true).2.put kB 2 true).2.get
        kA).2.put kC 3 true).2.keys = [kA, kC] := by
  refine ⟨?_, ?_, ?_⟩
  · intro A c k e hp hl
    unfold Cache.get
    rw [hl, hp]
    show lookupEntry k (updateEntry k (fun en => { en with timestamp := c.now }) c.entries) = _
    rw [lookupEntry_updateEntry, hl]
    rfl
  · intro A c k h
    exact Cache.get_fifo_random_noop c k h
  · decide

/-- Witness for C3 on a concrete LRU cache with a present key. -/
theorem get_lru_refresh_spec_witness :
    demoLRU.policy = CachePolicy.LRU ∧
    lookupEntry kA demoLRU.entries = some (CacheEntry.make kA 1 0) ∧
    lookupEntry kA (demoLRU.get kA).2.entries =
      some { CacheEntry.make kA 1 0 with timestamp := demoLRU.now } :=
  ⟨rfl, by decide,
   get_lru_refresh_spec.1 Nat demoLRU kA (CacheEntry.make kA 1 0) rfl (by decide)⟩

/-- C4: under FIFO the final cache state after any interleaving of `get`
calls with `put` calls equals the state after the `put` calls alone, so
eviction order equals original insertion order regardless of reads; on a
capacity-2 FIFO cache the sequence `put a; put b; get a; put c` evicts `a`,
leaving the keys `b, c`. -/
theorem fifo_unaffected_by_reads :
    (∀ (A : Type) (ops : List (CacheOp A)) (c : Cache A),
        c.policy = CachePolicy.FIFO →
        c.runOps ops = c.runOps (ops.filter CacheOp.isPut)) ∧
    (((((Cache.init Nat CachePolicy.FIFO 2).put kA 1 true).2.put kB 2 true).2.get
        kA).2.put kC 3 true).2.keys = [kB, kC] := by
  constructor
  · intro A ops
    induction ops with
    | nil =>
      intro c _
      rfl
    | cons op ops ih =>
      intro c hp
      cases op with
      | put k v ow =>
        have hp2 : ((c.put k v ow).2).policy = CachePolicy.FIFO := by
          rw [Cache.put_policy]
          exact hp
        simp only [Cache.runOps, List.foldl_cons, List.filter_cons, CacheOp.isPut,
          if_pos]
        exact ih _ hp2
      | get k =>
        have hg : (c.get k).2 = c := Cache.get_fifo_random_noop c k (Or.inl hp)
        simp only [Cache.runOps, List.foldl_cons, List.filter_cons, CacheOp.isPut]
        show Cache.runOps (Cache.step c (CacheOp.get k)) ops = _
        rw [show Cache.step c (CacheOp.get k) = (c.get k).2 from rfl, hg]
        simp only [Bool.false_eq_true, if_neg]
        exact ih c hp
  · decide

/-- Witness for C4: a concrete FIFO cache where a read interleaved with a
put leaves the final state identical to running the put alone. -/
theorem fifo_unaffected_by_reads_witness :
    demoFIFO.policy = CachePolicy.FIFO ∧
    demoFIFO.runOps [CacheOp.get kA, CacheOp.put kC 3 true] =
      demoFIFO.runOps ([CacheOp.get kA, CacheOp.put kC 3 true].filter CacheOp.isPut) :=
  ⟨rfl, fifo_unaffected_by_reads.1 Nat [CacheOp.get kA, CacheOp.put kC 3 true] demoFIFO rfl⟩

/-- C9: `remove(key)` removes the entry if present and reports whether it
removed anything; on an absent key it returns the "nothing removed" result
and leaves the cache state unchanged. -/
theorem remove_semantics (A : Type) (c : Cache A) (k : String) :
    (lookupEntry k c.entries = none → c.remove k = (false, c)) ∧
    (∀ e : CacheEntry A, lookupEntry k c.entries = some e →
      (c.remove k).1 = true ∧
      (c.remove k).2.entries.length + 1 = c.entries.length ∧
      (c.keys.Nodup → lookupEntry k (c.remove k).2.entries = none)) := by
  constructor
  · intro h
    unfold Cache.remove
    rw [h]
  · intro e h
    have hstate : c.remove k =
        (true, { c with entries := c.entries.eraseP (fun p => p.1 == k) }) := by
      unfold Cache.remove
      rw [h]
    have hm := lookupEntry_mem k c.entries e h
    have hlen : (c.entries.eraseP (fun p => p.1 == k)).length = c.entries.length - 1 :=
      List.length_eraseP_of_mem hm (by simp)
    have hpos : 0 < c.entries.length := by
      apply List.length_pos.mpr
      intro hnil
      rw [hnil] at hm
      exact (List.not_mem_nil _) hm
    refine ⟨by rw [hstate], ?_, ?_⟩
    · rw [hstate]
      show (c.entries.eraseP (fun p => p.1 == k)).length + 1 = c.entries.length
      omega
    · intro hnd
      rw [hstate]
      exact lookupEntry_eraseP_self k c.entries hnd

/-- Witness for C9: an absent-key removal is a no-op and a present-key
removal deletes the entry, on a concrete cache. -/
theorem remove_semantics_witness :
    lookupEntry kC demoLRU.entries = none ∧
    demoLRU.remove kC = (false, demoLRU) ∧
    lookupEntry kA demoLRU.entries = some (CacheEntry.make kA 1 0) ∧
    demoLRU.keys.Nodup ∧
    lookupEntry kA (demoLRU.remove kA).2.entries = none :=
  ⟨by decide, (remove_semantics Nat demoLRU kC).1 (by decide), by decide, by decide,
   ((remove_semantics Nat demoLRU kA).2 (CacheEntry.make kA 1 0) (by decide)).2.2 (by decide)⟩
